import Mathlib

/-!
# Verification of `intmul.c` (repository BS-Uebungen, Uebung_1/Intmul)

A shallow embedding of the hexadecimal multiplier `intmul.c`.  C strings are
modelled as `List Nat` of byte values (`'0'` = 48, `'9'` = 57, `'a'` = 97,
`'f'` = 102, `'A'` = 65, `'F'` = 70, `'\n'` = 10); C `int` arithmetic is
modelled on `Int` (with `Int.tdiv`/`Int.tmod`, which truncate toward zero
exactly as C `/` and `%` do).  The whole process tree is modelled as a
fuel-indexed recursive function on the stdin byte stream: `some out` means
the process exits with status 0 and has written exactly `out` to stdout,
`none` means it exits with a nonzero status having written nothing to
stdout (all diagnostics in `intmul.c` go to stderr).
-/

namespace Intmul

/-- Embedding of `isValidHexadecimal` (intmul.c lines 44-54): every character
must be `0`-`9`, `a`-`f`, `A`-`F` or `'\n'`. -/
def isValidHexadecimal (s : List Nat) : Bool :=
  s.all (fun c =>
    (decide (48 ≤ c) && decide (c ≤ 57)) ||
    (decide (97 ≤ c) && decide (c ≤ 102)) ||
    (decide (65 ≤ c) && decide (c ≤ 70)) ||
    (decide (c = 10)))

/-- Embedding of `hexDigitToInt` (intmul.c lines 64-74): `isxdigit`/`isdigit`/
`tolower` dispatch, `-1` for a non-hex character. -/
def hexDigitToInt (c : Nat) : Int :=
  if 48 ≤ c ∧ c ≤ 57 then (c : Int) - 48
  else if 97 ≤ c ∧ c ≤ 102 then (c : Int) - 97 + 10
  else if 65 ≤ c ∧ c ≤ 70 then (c : Int) - 65 + 10
  else -1

/-- The table `"0123456789abcdef"` of `intToHex` as byte values. -/
def hexDigitTable : List Nat :=
  [48, 49, 50, 51, 52, 53, 54, 55, 56, 57, 97, 98, 99, 100, 101, 102]

/-- Embedding of `intToHex` (intmul.c lines 83-90): table lookup for values
0-15, otherwise `(char)-1` (byte value 255). -/
def intToHex (num : Int) : Nat :=
  if 0 ≤ num ∧ num ≤ 15 then hexDigitTable.getD num.toNat 0 else 255

/-- Embedding of C `tolower` as used on line 582-583: maps `A`-`Z` to
`a`-`z`, leaves everything else unchanged. -/
def toLowerC (c : Nat) : Nat :=
  if 65 ≤ c ∧ c ≤ 90 then c + 32 else c

/-- Embedding of `addHexDigits` (intmul.c lines 189-199).  The C function
returns the low-order digit and overwrites `*carryOut` with the high-order
digit; we return the pair `(low digit, new carry)`.  `Int.tdiv`/`Int.tmod`
are C's truncating `/` and `%`. -/
def addHexDigits (a b carryIn : Nat) : Nat × Nat :=
  let numA := hexDigitToInt a
  let numB := hexDigitToInt b
  let numCarry := hexDigitToInt carryIn
  let result := numA + numB + 16 * numCarry
  (intToHex (Int.tmod result 16), intToHex (Int.tdiv result 16))

/-! ## Specification-side digit values -/

/-- Numeric value of a digit character (specification side): the
nonnegative part of `hexDigitToInt`. -/
def dval (c : Nat) : Nat := (hexDigitToInt c).toNat

/-- The character is one of `0`-`9`, `a`-`f`, `A`-`F`. -/
def IsHexDigit (c : Nat) : Prop :=
  (48 ≤ c ∧ c ≤ 57) ∨ (97 ≤ c ∧ c ≤ 102) ∨ (65 ≤ c ∧ c ≤ 70)

instance (c : Nat) : Decidable (IsHexDigit c) := by
  unfold IsHexDigit; exact inferInstance

/-- The character is a lowercase hex digit `0`-`9`, `a`-`f`. -/
def IsLowerHexDigit (c : Nat) : Prop :=
  (48 ≤ c ∧ c ≤ 57) ∨ (97 ≤ c ∧ c ≤ 102)

instance (c : Nat) : Decidable (IsLowerHexDigit c) := by
  unfold IsLowerHexDigit; exact inferInstance

/-- Value of a digit string, least-significant digit first. -/
def valL : List Nat → Nat
  | [] => 0
  | c :: rest => dval c + 16 * valL rest

/-- Numeric value of a hex digit string, most-significant digit first
(the usual reading order of the program's strings). -/
def hexVal (s : List Nat) : Nat := valL s.reverse

/-! ## Basic digit lemmas -/

theorem isHexDigit_dval_le {c : Nat} (h : IsHexDigit c) : dval c ≤ 15 := by
  unfold IsHexDigit at h
  unfold dval hexDigitToInt
  rcases h with h | h | h <;> simp only [h] <;> split <;> omega

theorem hexDigitToInt_eq_dval {c : Nat} (h : IsHexDigit c) :
    hexDigitToInt c = (dval c : Int) := by
  unfold IsHexDigit at h
  unfold dval hexDigitToInt
  rcases h with h | h | h <;> split <;> omega

theorem roundtrip : ∀ k : Nat, k < 16 →
    hexDigitToInt (intToHex ((k : Int))) = (k : Int) ∧
    IsHexDigit (intToHex ((k : Int))) ∧
    IsLowerHexDigit (intToHex ((k : Int))) ∧
    intToHex ((k : Int)) ≠ 10 := by decide

theorem dval_intToHex {k : Nat} (h : k < 16) :
    dval (intToHex ((k : Int))) = k := by
  unfold dval
  rw [(roundtrip k h).1]
  rfl

theorem dval_48 : dval 48 = 0 := by decide

theorem isHexDigit_48 : IsHexDigit 48 := by decide

/-- `addHexDigits` on valid digits computes digit-and-carry of the column sum. -/
theorem addHexDigits_spec {a b c : Nat}
    (ha : IsHexDigit a) (hb : IsHexDigit b) (hc : IsHexDigit c) :
    addHexDigits a b c =
      (intToHex ((((dval a + dval b + 16 * dval c) % 16 : Nat) : Int)),
       intToHex ((((dval a + dval b + 16 * dval c) / 16 : Nat) : Int))) := by
  unfold addHexDigits
  rw [hexDigitToInt_eq_dval ha, hexDigitToInt_eq_dval hb, hexDigitToInt_eq_dval hc]
  have h1 : (dval a : Int) + dval b + 16 * dval c =
      ((dval a + dval b + 16 * dval c : Nat) : Int) := by omega
  simp only [h1]
  rfl

/-! ## Fixed-width rendering (specification side) -/

/-- `w` hex digits of `n`, least-significant first, canonical lowercase. -/
def toHexFixedL : Nat → Nat → List Nat
  | 0, _ => []
  | w + 1, n => intToHex ((n % 16 : Nat) : Int) :: toHexFixedL w (n / 16)

/-- `w` hex digits of `n`, most-significant first, zero-padded, lowercase:
the rendering `left-padded with zero digits to length w`. -/
def toHexFixed (w n : Nat) : List Nat := (toHexFixedL w n).reverse

theorem toHexFixedL_length (w n : Nat) : (toHexFixedL w n).length = w := by
  induction w generalizing n with
  | zero => rfl
  | succ w ih => simp [toHexFixedL, ih]

theorem toHexFixed_length (w n : Nat) : (toHexFixed w n).length = w := by
  simp [toHexFixed, toHexFixedL_length]

theorem toHexFixedL_mem {w n c : Nat} (h : c ∈ toHexFixedL w n) :
    IsHexDigit c ∧ IsLowerHexDigit c ∧ c ≠ 10 := by
  induction w generalizing n with
  | zero => simp [toHexFixedL] at h
  | succ w ih =>
    simp only [toHexFixedL, List.mem_cons] at h
    rcases h with h | h
    · subst h
      have hr := roundtrip (n % 16) (Nat.mod_lt _ (by omega))
      exact ⟨hr.2.1, hr.2.2.1, hr.2.2.2⟩
    · exact ih h

theorem toHexFixed_mem {w n c : Nat} (h : c ∈ toHexFixed w n) :
    IsHexDigit c ∧ IsLowerHexDigit c ∧ c ≠ 10 := by
  rw [toHexFixed, List.mem_reverse] at h
  exact toHexFixedL_mem h

theorem valL_toHexFixedL (w n : Nat) : valL (toHexFixedL w n) = n % 16 ^ w := by
  induction w generalizing n with
  | zero => simp [toHexFixedL, valL, Nat.mod_one]
  | succ w ih =>
    have h16 : n % 16 < 16 := Nat.mod_lt _ (by omega)
    simp only [toHexFixedL, valL, ih, dval_intToHex h16]
    have hp : 16 ^ (w + 1) = 16 * 16 ^ w := by ring
    rw [hp, Nat.mod_mul]

theorem hexVal_toHexFixed (w n : Nat) : hexVal (toHexFixed w n) = n % 16 ^ w := by
  simp [hexVal, toHexFixed, valL_toHexFixedL]

theorem hexVal_toHexFixed_of_lt {w n : Nat} (h : n < 16 ^ w) :
    hexVal (toHexFixed w n) = n := by
  rw [hexVal_toHexFixed, Nat.mod_eq_of_lt h]

/-! ## List-value lemmas -/

theorem valL_append (xs ys : List Nat) :
    valL (xs ++ ys) = valL xs + 16 ^ xs.length * valL ys := by
  induction xs with
  | nil => simp [valL]
  | cons c rest ih =>
    simp only [List.cons_append, valL, List.length_cons, List.append_eq]
    rw [ih]
    ring

theorem valL_replicate_48 (k : Nat) : valL (List.replicate k 48) = 0 := by
  induction k with
  | zero => rfl
  | succ k ih => simp [List.replicate_succ, valL, ih, dval_48]

theorem valL_lt {s : List Nat} (h : ∀ c ∈ s, IsHexDigit c) :
    valL s < 16 ^ s.length := by
  induction s with
  | nil => simp [valL]
  | cons c rest ih =>
    have hc : dval c ≤ 15 := isHexDigit_dval_le (h c (by simp))
    have hr : valL rest < 16 ^ rest.length := ih (fun x hx => h x (by simp [hx]))
    simp only [valL, List.length_cons, pow_succ]
    omega

theorem hexVal_lt {s : List Nat} (h : ∀ c ∈ s, IsHexDigit c) :
    hexVal s < 16 ^ s.length := by
  have hrev : ∀ c ∈ s.reverse, IsHexDigit c := fun c hc => h c (List.mem_reverse.mp hc)
  have := valL_lt hrev
  simpa [hexVal] using this

theorem hexVal_append (xs ys : List Nat) :
    hexVal (xs ++ ys) = hexVal xs * 16 ^ ys.length + hexVal ys := by
  simp only [hexVal, List.reverse_append, valL_append, List.length_reverse]
  ring

theorem hexVal_replicate_48_append (k : Nat) (xs : List Nat) :
    hexVal (List.replicate k 48 ++ xs) = hexVal xs := by
  rw [hexVal_append]
  simp [hexVal, valL_replicate_48]

theorem hexVal_append_replicate_48 (xs : List Nat) (k : Nat) :
    hexVal (xs ++ List.replicate k 48) = hexVal xs * 16 ^ k := by
  rw [hexVal_append]
  simp [hexVal, valL_replicate_48]

/-! ## The combiner's digit-column loop (intmul.c lines 551-562) -/

/-- One column of the summation loop: the body of the `j` loop for a fixed
position `i`.  `final_result[i]` starts as the incoming carry, `carry_digit`
is reset to `'0'` (48) and then the four addends' digits are accumulated
sequentially via `addHexDigits`.  Returns `(digit written, outgoing carry)`. -/
def columnStep (carry d0 d1 d2 d3 : Nat) : Nat × Nat :=
  let p0 := addHexDigits carry d0 48
  let p1 := addHexDigits p0.1 d1 p0.2
  let p2 := addHexDigits p1.1 d2 p1.2
  let p3 := addHexDigits p2.1 d3 p2.2
  p3

/-- The `i` loop of the combiner, processed least-significant digit first
(the C loop runs `i` from `2*lenA-1` down to `0`).  Returns the digits
least-significant first together with the final value of `carry_digit`
(which the C code drops after the last iteration). -/
def sumColumns : Nat → List Nat → List Nat → List Nat → List Nat → List Nat × Nat
  | carry, a :: as, b :: bs, c :: cs, d :: ds =>
    let p := columnStep carry a b c d
    let rest := sumColumns p.2 as bs cs ds
    (p.1 :: rest.1, rest.2)
  | carry, _, _, _, _ => ([], carry)

/-- A digit character in canonical (lowercase) form, as produced by
`intToHex`. -/
def Canonical (c : Nat) : Prop :=
  IsHexDigit c ∧ intToHex ((dval c : Nat) : Int) = c

theorem canonical_48 : Canonical 48 := by
  constructor
  · exact isHexDigit_48
  · decide

theorem canonical_intToHex {k : Nat} (h : k < 16) :
    Canonical (intToHex ((k : Nat) : Int)) := by
  refine ⟨(roundtrip k h).2.1, ?_⟩
  rw [dval_intToHex h]

theorem columnStep_spec {carry d0 d1 d2 d3 : Nat}
    (hc : IsHexDigit carry) (h0 : IsHexDigit d0) (h1 : IsHexDigit d1)
    (h2 : IsHexDigit d2) (h3 : IsHexDigit d3) :
    columnStep carry d0 d1 d2 d3 =
      (intToHex (((dval carry + dval d0 + dval d1 + dval d2 + dval d3) % 16 : Nat) : Int),
       intToHex (((dval carry + dval d0 + dval d1 + dval d2 + dval d3) / 16 : Nat) : Int)) := by
  have hcv := isHexDigit_dval_le hc
  have h0v := isHexDigit_dval_le h0
  have h1v := isHexDigit_dval_le h1
  have h2v := isHexDigit_dval_le h2
  have h3v := isHexDigit_dval_le h3
  unfold columnStep
  rw [addHexDigits_spec hc h0 isHexDigit_48]
  simp only [dval_48, Nat.mul_zero, Nat.add_zero]
  set S0 := dval carry + dval d0 with hS0
  have e0d : dval (intToHex ((S0 % 16 : Nat) : Int)) = S0 % 16 :=
    dval_intToHex (Nat.mod_lt _ (by omega))
  have e0c : dval (intToHex ((S0 / 16 : Nat) : Int)) = S0 / 16 :=
    dval_intToHex (by omega)
  rw [addHexDigits_spec (roundtrip _ (Nat.mod_lt _ (by omega))).2.1 h1
        (roundtrip _ (by omega : S0 / 16 < 16)).2.1]
  rw [e0d, e0c]
  have eq1 : S0 % 16 + dval d1 + 16 * (S0 / 16) = S0 + dval d1 := by omega
  rw [eq1]
  set S1 := S0 + dval d1 with hS1
  have e1d : dval (intToHex ((S1 % 16 : Nat) : Int)) = S1 % 16 :=
    dval_intToHex (Nat.mod_lt _ (by omega))
  have e1c : dval (intToHex ((S1 / 16 : Nat) : Int)) = S1 / 16 :=
    dval_intToHex (by omega)
  rw [addHexDigits_spec (roundtrip _ (Nat.mod_lt _ (by omega))).2.1 h2
        (roundtrip _ (by omega : S1 / 16 < 16)).2.1]
  rw [e1d, e1c]
  have eq2 : S1 % 16 + dval d2 + 16 * (S1 / 16) = S1 + dval d2 := by omega
  rw [eq2]
  set S2 := S1 + dval d2 with hS2
  have e2d : dval (intToHex ((S2 % 16 : Nat) : Int)) = S2 % 16 :=
    dval_intToHex (Nat.mod_lt _ (by omega))
  have e2c : dval (intToHex ((S2 / 16 : Nat) : Int)) = S2 / 16 :=
    dval_intToHex (by omega)
  rw [addHexDigits_spec (roundtrip _ (Nat.mod_lt _ (by omega))).2.1 h3
        (roundtrip _ (by omega : S2 / 16 < 16)).2.1]
  rw [e2d, e2c]
  have eq3 : S2 % 16 + dval d3 + 16 * (S2 / 16) = S2 + dval d3 := by omega
  rw [eq3]

/-- Correctness of the whole summation loop: on four equal-length digit
lists (least-significant first) and a canonical carry digit, the produced
digits render the total modulo `16 ^ length` and the final carry holds the
overflow. -/
theorem sumColumns_spec :
    ∀ (as bs cs ds : List Nat) (carry : Nat),
      bs.length = as.length → cs.length = as.length → ds.length = as.length →
      (∀ c ∈ as, IsHexDigit c) → (∀ c ∈ bs, IsHexDigit c) →
      (∀ c ∈ cs, IsHexDigit c) → (∀ c ∈ ds, IsHexDigit c) →
      Canonical carry →
      sumColumns carry as bs cs ds =
        (toHexFixedL as.length (dval carry + valL as + valL bs + valL cs + valL ds),
         intToHex
           (((dval carry + valL as + valL bs + valL cs + valL ds) / 16 ^ as.length : Nat)
             : Int)) := by
  intro as
  induction as with
  | nil =>
    intro bs cs ds carry hb hc hd _ _ _ _ hcar
    rw [List.length_nil, List.length_eq_zero] at hb hc hd
    subst hb; subst hc; subst hd
    simp only [sumColumns, List.length_nil, toHexFixedL, valL, pow_zero, Nat.div_one,
      Nat.add_zero, Prod.mk.injEq, true_and]
    exact hcar.2.symm
  | cons a as ih =>
    intro bs cs ds carry hb hc hd hha hhb hhc hhd hcar
    match bs, cs, ds with
    | b :: bs, c :: cs, d :: ds =>
      simp only [List.length_cons, Nat.succ.injEq] at hb hc hd
      have hda : IsHexDigit a := hha a (by simp)
      have hdb : IsHexDigit b := hhb b (by simp)
      have hdc : IsHexDigit c := hhc c (by simp)
      have hdd : IsHexDigit d := hhd d (by simp)
      have hva := isHexDigit_dval_le hda
      have hvb := isHexDigit_dval_le hdb
      have hvc := isHexDigit_dval_le hdc
      have hvd := isHexDigit_dval_le hdd
      have hvcar := isHexDigit_dval_le hcar.1
      -- the head column
      set S0 := dval carry + dval a + dval b + dval c + dval d with hS0
      have hS0le : S0 ≤ 75 := by omega
      have hcol : columnStep carry a b c d =
          (intToHex ((S0 % 16 : Nat) : Int), intToHex ((S0 / 16 : Nat) : Int)) :=
        columnStep_spec hcar.1 hda hdb hdc hdd
      have hcar' : Canonical (intToHex ((S0 / 16 : Nat) : Int)) :=
        canonical_intToHex (by omega)
      have hrec := ih bs cs ds (intToHex ((S0 / 16 : Nat) : Int)) hb hc hd
        (fun x hx => hha x (by simp [hx])) (fun x hx => hhb x (by simp [hx]))
        (fun x hx => hhc x (by simp [hx])) (fun x hx => hhd x (by simp [hx])) hcar'
      have hdvcar' : dval (intToHex ((S0 / 16 : Nat) : Int)) = S0 / 16 :=
        dval_intToHex (by omega)
      rw [hdvcar'] at hrec
      -- unfold one step of sumColumns
      show (let p := columnStep carry a b c d
            let rest := sumColumns p.2 as bs cs ds
            (p.1 :: rest.1, rest.2)) = _
      simp only [hcol]
      rw [hrec]
      -- arithmetic: head digit and tail totals
      set T' := S0 / 16 + valL as + valL bs + valL cs + valL ds with hT'
      have hgoalT : dval carry + valL (a :: as) + valL (b :: bs) + valL (c :: cs) +
          valL (d :: ds) = S0 % 16 + 16 * T' := by
        simp only [valL, hT', hS0]
        omega
      rw [hgoalT]
      have hlen : (a :: as).length = as.length + 1 := rfl
      have hdigits : intToHex ((S0 % 16 : Nat) : Int) :: toHexFixedL as.length T' =
          toHexFixedL (a :: as).length (S0 % 16 + 16 * T') := by
        rw [hlen]
        have h1 : (S0 % 16 + 16 * T') % 16 = S0 % 16 := by omega
        have h2 : (S0 % 16 + 16 * T') / 16 = T' := by omega
        simp only [toHexFixedL, h1, h2]
      have hcarry : intToHex ((T' / 16 ^ as.length : Nat) : Int) =
          intToHex (((S0 % 16 + 16 * T') / 16 ^ (a :: as).length : Nat) : Int) := by
        rw [hlen]
        have hdd16 : (S0 % 16 + 16 * T') / 16 ^ (as.length + 1) = T' / 16 ^ as.length := by
          rw [pow_succ 16 as.length, Nat.mul_comm (16 ^ as.length) 16,
            ← Nat.div_div_eq_div_mul, Nat.add_mul_div_left _ _ (by omega : (0:Nat) < 16)]
          have h0 : S0 % 16 / 16 = 0 := Nat.div_eq_of_lt (by omega)
          rw [h0, Nat.zero_add]
        rw [hdd16]
      simp only [Prod.mk.injEq]
      exact ⟨hdigits, hcarry⟩

/-! ## Padding and alignment (intmul.c lines 208-245) -/

/-- The `while (maxLength < lenA || maxLength < lenB) maxLength *= 2;` loop
of `padAndAlignNumbers`, with an explicit iteration bound.  The C loop
starts from `maxLength = 1` and doubles; `fuel` iterations suffice whenever
`2 ^ fuel * m` has reached the target (see `growPow2_exact`). -/
def growPow2 : Nat → Nat → Nat → Nat
  | 0, m, _ => m
  | fuel + 1, m, target => if m < target then growPow2 fuel (2 * m) target else m

/-- `maxLength` as computed by `padAndAlignNumbers`: start at 1 and double
while below `max lenA lenB`.  The fuel `max lenA lenB` is always enough
(`2 ^ t ≥ t`). -/
def computeMaxLength (lenA lenB : Nat) : Nat :=
  growPow2 (max lenA lenB) 1 (max lenA lenB)

/-- Embedding of `padAndAlignNumbers` (intmul.c lines 208-245): both strings
are left-padded with `'0'` (48) to length `maxLength`. -/
def padAndAlign (numA numB : List Nat) : List Nat × List Nat :=
  let maxLength := computeMaxLength numA.length numB.length
  (List.replicate (maxLength - numA.length) 48 ++ numA,
   List.replicate (maxLength - numB.length) 48 ++ numB)

/-- `m` is a power of two. -/
def IsPow2 (m : Nat) : Prop := ∃ k, m = 2 ^ k

theorem growPow2_ge {fuel m target : Nat} (h : target ≤ 2 ^ fuel * m) :
    target ≤ growPow2 fuel m target := by
  induction fuel generalizing m with
  | zero => simpa [growPow2] using h
  | succ fuel ih =>
    simp only [growPow2]
    split
    · apply ih
      have he : 2 ^ fuel * (2 * m) = 2 ^ (fuel + 1) * m := by ring
      omega
    · omega

theorem growPow2_pow2 {fuel m target : Nat} (h : IsPow2 m) :
    IsPow2 (growPow2 fuel m target) := by
  induction fuel generalizing m with
  | zero => simpa [growPow2] using h
  | succ fuel ih =>
    simp only [growPow2]
    split
    · obtain ⟨k, hk⟩ := h
      exact ih ⟨k + 1, by rw [hk]; ring⟩
    · exact h

theorem growPow2_min {fuel m target p : Nat} (hm : IsPow2 m) (hp : IsPow2 p)
    (hmp : m ≤ p) (htp : target ≤ p) :
    growPow2 fuel m target ≤ p := by
  induction fuel generalizing m with
  | zero => simpa [growPow2] using hmp
  | succ fuel ih =>
    simp only [growPow2]
    split
    · obtain ⟨a, ha⟩ := hm
      obtain ⟨b, hb⟩ := hp
      have hab : a < b := by
        by_contra hcon
        push_neg at hcon
        have : p ≤ m := by
          rw [ha, hb]
          exact Nat.pow_le_pow_right (by omega) hcon
        omega
      refine ih ⟨a + 1, by rw [ha]; ring⟩ ?_
      calc 2 * m = 2 ^ (a + 1) := by rw [ha]; ring
        _ ≤ 2 ^ b := Nat.pow_le_pow_right (by omega) (by omega)
        _ = p := hb.symm
    · exact hmp

theorem computeMaxLength_ge (lenA lenB : Nat) :
    max lenA lenB ≤ computeMaxLength lenA lenB := by
  apply growPow2_ge
  have := Nat.lt_two_pow (max lenA lenB)
  omega

theorem computeMaxLength_pow2 (lenA lenB : Nat) :
    IsPow2 (computeMaxLength lenA lenB) :=
  growPow2_pow2 ⟨0, rfl⟩

theorem computeMaxLength_min {lenA lenB p : Nat} (hp : IsPow2 p)
    (htp : max lenA lenB ≤ p) :
    computeMaxLength lenA lenB ≤ p := by
  apply growPow2_min ⟨0, rfl⟩ hp _ htp
  obtain ⟨k, hk⟩ := hp
  rw [hk]
  exact Nat.one_le_two_pow

theorem computeMaxLength_eq_self {L : Nat} (hL : IsPow2 L) :
    computeMaxLength L L = L := by
  have h1 := computeMaxLength_ge L L
  have h2 := @computeMaxLength_min L L L hL (by omega)
  omega

theorem padAndAlign_length (numA numB : List Nat) :
    (padAndAlign numA numB).1.length = computeMaxLength numA.length numB.length ∧
    (padAndAlign numA numB).2.length = computeMaxLength numA.length numB.length := by
  have hge := computeMaxLength_ge numA.length numB.length
  unfold padAndAlign
  constructor <;> simp only [List.length_append, List.length_replicate] <;> omega

/-- Identity of `padAndAlignNumbers` on already equal, power-of-two length
operands. -/
theorem padAndAlign_id {numA numB : List Nat} (hlen : numA.length = numB.length)
    (hpow : IsPow2 numA.length) :
    padAndAlign numA numB = (numA, numB) := by
  unfold padAndAlign computeMaxLength
  rw [← hlen]
  have hmax : max numA.length numA.length = numA.length := by omega
  rw [hmax]
  have heq : growPow2 numA.length 1 numA.length = numA.length := by
    have h1 : numA.length ≤ growPow2 numA.length 1 numA.length := by
      apply growPow2_ge
      have := Nat.lt_two_pow numA.length
      omega
    have h2 : growPow2 numA.length 1 numA.length ≤ numA.length := by
      apply growPow2_min ⟨0, rfl⟩ hpow _ (le_refl _)
      obtain ⟨k, hk⟩ := hpow
      rw [hk]
      exact Nat.one_le_two_pow
    omega
  rw [heq]
  simp

theorem hexVal_padAndAlign (numA numB : List Nat) :
    hexVal (padAndAlign numA numB).1 = hexVal numA ∧
    hexVal (padAndAlign numA numB).2 = hexVal numB := by
  unfold padAndAlign
  exact ⟨hexVal_replicate_48_append _ _, hexVal_replicate_48_append _ _⟩

/-! ## The shifting step (intmul.c lines 508-541) -/

/-- Embedding of the shift loop: intermediate result `i` (its first `lenA`
characters, the digits before the trailing newline) is placed into a
`2*lenA`-wide field.  `i = 0`: digits then zeros; `i = 1, 2`: `lenA/2`
zeros, digits, zeros up to `2*lenA`; `i = 3`: `lenA` zeros then digits. -/
def shiftOne (i lenA : Nat) (r : List Nat) : List Nat :=
  if i = 0 then
    r.take lenA ++ List.replicate (2 * lenA - lenA) 48
  else if i = 1 ∨ i = 2 then
    List.replicate (lenA / 2) 48 ++ r.take lenA ++
      List.replicate (2 * lenA - (lenA / 2 + lenA)) 48
  else if i = 3 then
    List.replicate lenA 48 ++ r.take lenA
  else []

/-- Embedding of the final summation (intmul.c lines 551-562) applied to the
four shifted buffers: digits of `final_result` (most-significant first) and
the final value of `carry_digit`. -/
def combine (lenA : Nat) (r0 r1 r2 r3 : List Nat) : List Nat × Nat :=
  let s0 := shiftOne 0 lenA r0
  let s1 := shiftOne 1 lenA r1
  let s2 := shiftOne 2 lenA r2
  let s3 := shiftOne 3 lenA r3
  let t := sumColumns 48 s0.reverse s1.reverse s2.reverse s3.reverse
  (t.1.reverse, t.2)

/-! ## Stream input model (`getline`, intmul.c lines 98-156) -/

/-- Split a byte stream at the first `'\n'` (10): returns the line
(including the `'\n'` when present) and the remaining stream.  This is the
data `getline` hands back on a non-empty stream. -/
def splitAtNewline : List Nat → List Nat × List Nat
  | [] => ([], [])
  | c :: rest =>
    if c = 10 then ([c], rest)
    else
      let p := splitAtNewline rest
      (c :: p.1, p.2)

/-- Model of one `getline` call: `none` on an exhausted stream (`getline`
returns -1), otherwise the line (with its `'\n'` if one was found) and the
rest of the stream. -/
def getlineModel (s : List Nat) : Option (List Nat × List Nat) :=
  if s = [] then none else some (splitAtNewline s)

/-- The newline trimming of `readInput` (intmul.c lines 146-155): drop one
trailing `'\n'` when present. -/
def trimNewline (s : List Nat) : List Nat :=
  if s.getLast? = some 10 then s.dropLast else s

/-- Embedding of `readInput` (intmul.c lines 98-156) on a stdin byte
stream: two `getline` calls, the two emptiness checks, the two
`isValidHexadecimal` checks, then newline trimming.  `none` models
`exit(EXIT_FAILURE)` (nothing has been written to stdout at that point). -/
def readInput (stdin : List Nat) : Option (List Nat × List Nat) := do
  let p1 ← getlineModel stdin
  if p1.1 = [10] then none
  else do
    let p2 ← getlineModel p1.2
    if p2.1 = [10] then none
    else if ¬ isValidHexadecimal p1.1 then none
    else if ¬ isValidHexadecimal p2.1 then none
    else some (trimNewline p1.1, trimNewline p2.1)

/-! ## `printf("%02x\n", res)` model and the base case (intmul.c 580-588) -/

/-- Hex digits of `n`, most-significant first, no leading zeros (one digit
for `n = 0`); the fuel argument is always sufficient at `n + 1`. -/
def natToHexDigitsAux : Nat → Nat → List Nat
  | 0, _ => []
  | fuel + 1, n =>
    if n < 16 then [intToHex ((n : Nat) : Int)]
    else natToHexDigitsAux fuel (n / 16) ++ [intToHex ((n % 16 : Nat) : Int)]

/-- Model of `printf("%02x", res)` for a nonnegative `res`: lowercase hex,
zero-padded to a minimum width of 2. -/
def printf02x (res : Nat) : List Nat :=
  let ds := natToHexDigitsAux (res + 1) res
  if ds.length < 2 then List.replicate (2 - ds.length) 48 ++ ds else ds

/-- Embedding of the single-digit branch of `main` (intmul.c lines 580-588):
both digits are lowercased, converted, multiplied, and printed with
`"%02x"`.  (`%x` interprets the nonnegative `int` as unsigned; on the
reachable inputs the product is in 0..225.) -/
def baseCaseMultiply (a b : Nat) : List Nat :=
  printf02x ((hexDigitToInt (toLowerC a) * hexDigitToInt (toLowerC b)).toNat)

/-! ## The recursion (intmul.c `main`, lines 369-598) -/

/-- One invocation of `main` after `readInput`, parameterised by the
behaviour `rec` of a child process on its stdin.  `a`, `b` are the two
trimmed input lines.  Mirrors `main`: `padAndAlignNumbers`, then for
`lenA > 1` fork four children fed `"Ah\nBh\n"`, `"Ah\nBl\n"`, `"Al\nBh\n"`,
`"Al\nBl\n"`, read one line back from each (`getline`), shift and sum;
for `lenA == 1` the single-digit multiplication; for `lenA == 0` nothing is
printed and the program still exits successfully (unreachable: padding
always produces length ≥ 1). -/
def intmulStep (rec : List Nat → Option (List Nat)) (a b : List Nat) :
    Option (List Nat) :=
  let p := padAndAlign a b
  let A := p.1
  let B := p.2
  let lenA := A.length
  if 1 < lenA then
    let mid := lenA / 2
    let Ah := A.take mid
    let Al := A.drop mid
    let Bh := B.take mid
    let Bl := B.drop mid
    (rec (Ah ++ [10] ++ Bh ++ [10])).bind fun out0 =>
    (rec (Ah ++ [10] ++ Bl ++ [10])).bind fun out1 =>
    (rec (Al ++ [10] ++ Bh ++ [10])).bind fun out2 =>
    (rec (Al ++ [10] ++ Bl ++ [10])).bind fun out3 =>
    (getlineModel out0).bind fun q0 =>
    (getlineModel out1).bind fun q1 =>
    (getlineModel out2).bind fun q2 =>
    (getlineModel out3).bind fun q3 =>
    some ((combine lenA q0.1 q1.1 q2.1 q3.1).1 ++ [10])
  else if lenA = 1 then
    some (baseCaseMultiply (A.headD 0) (B.headD 0) ++ [10])
  else
    some []

/-- The whole process tree of `intmul` on a stdin byte stream, indexed by
fuel (an upper bound on the process-tree depth; the program itself recurses
until the operand length reaches 1).  `some out` = exit status 0 with
stdout exactly `out`; `none` = nonzero exit status and empty stdout. -/
def intmulProg : Nat → List Nat → Option (List Nat)
  | 0, _ => none
  | fuel + 1, stdin => (readInput stdin).bind fun p => intmulStep (intmulProg fuel) p.1 p.2

/-! ## `waitForChildren` (intmul.c lines 315-324) -/

/-- Embedding of `waitForChildren`: walk the children in index order,
`waitpid` each in turn, and `exit(EXIT_FAILURE)` as soon as one collected
status is nonzero.  Given the list of the children's exit statuses, returns
`(number of waitpid calls performed, whether the loop ran to completion)`;
`(k, false)` means the parent exited with failure after collecting only the
first `k` children. -/
def waitForChildren : List Nat → Nat × Bool
  | [] => (0, true)
  | s :: rest =>
    if s ≠ 0 then (1, false)
    else
      let r := waitForChildren rest
      (r.1 + 1, r.2)

/-! ## Stream-parsing lemmas -/

theorem splitAtNewline_eq {xs : List Nat} (h : 10 ∉ xs) (rest : List Nat) :
    splitAtNewline (xs ++ 10 :: rest) = (xs ++ [10], rest) := by
  induction xs with
  | nil => simp [splitAtNewline]
  | cons c cs ih =>
    have hc : c ≠ 10 := fun hcc => h (by simp [hcc])
    simp only [List.cons_append, splitAtNewline, if_neg hc, List.append_eq]
    rw [ih (fun hm => h (by simp [hm]))]

theorem getlineModel_eq {xs : List Nat} (h : 10 ∉ xs) (rest : List Nat) :
    getlineModel (xs ++ 10 :: rest) = some (xs ++ [10], rest) := by
  unfold getlineModel
  rw [if_neg (by simp), splitAtNewline_eq h rest]

/-- Any line produced by `splitAtNewline` contains `10` at most as its last
character. -/
theorem splitAtNewline_no_inner_newline (s : List Nat) :
    ∀ c ∈ (splitAtNewline s).1.dropLast, c ≠ 10 := by
  induction s with
  | nil => simp [splitAtNewline]
  | cons c cs ih =>
    by_cases hc : c = 10
    · simp [splitAtNewline, hc]
    · simp only [splitAtNewline, if_neg hc]
      intro x hx
      rcases List.eq_nil_or_concat (splitAtNewline cs).1 with hnil | ⟨l, a, hla⟩
      · rw [hnil] at hx
        simp at hx
      · rw [List.concat_eq_append] at hla
        rw [hla, ← List.cons_append, List.dropLast_concat] at hx
        rcases List.mem_cons.mp hx with hx | hx
        · subst hx; exact hc
        · have hxl := ih x
          rw [hla, List.dropLast_concat] at hxl
          exact hxl hx

theorem trimNewline_concat (xs : List Nat) : trimNewline (xs ++ [10]) = xs := by
  unfold trimNewline
  rw [List.getLast?_concat, if_pos rfl, List.dropLast_concat]

/-- A character of a trimmed `splitAtNewline` line is never `10`. -/
theorem trimNewline_splitAtNewline_no_newline (s : List Nat) :
    ∀ c ∈ trimNewline (splitAtNewline s).1, c ≠ 10 := by
  intro c hc
  unfold trimNewline at hc
  split at hc
  · exact splitAtNewline_no_inner_newline s c hc
  · rename_i hlast
    rcases List.eq_nil_or_concat (splitAtNewline s).1 with hnil | ⟨l, a, hla⟩
    · rw [hnil] at hc; simp at hc
    · rw [List.concat_eq_append] at hla
      rw [hla] at hc hlast
      rw [List.getLast?_concat] at hlast
      rcases (List.mem_append.mp hc) with hx | hx
      · have hxl := splitAtNewline_no_inner_newline s c
        rw [hla, List.dropLast_concat] at hxl
        exact hxl hx
      · intro hc10
        simp only [List.mem_singleton] at hx
        subst hx
        apply hlast
        rw [hc10]

theorem isValidHexadecimal_of_hex {s : List Nat}
    (h : ∀ c ∈ s, IsHexDigit c ∨ c = 10) : isValidHexadecimal s = true := by
  unfold isValidHexadecimal
  rw [List.all_eq_true]
  intro c hc
  rcases h c hc with hh | hh
  · unfold IsHexDigit at hh
    rcases hh with hh | hh | hh <;> simp [hh.1, hh.2]
  · simp [hh]

/-- `readInput` on the stream `A\nB\n` with `A`, `B` nonempty hex-digit
strings yields `(A, B)`. -/
theorem readInput_wellformed {A B : List Nat} (hA : A ≠ []) (hB : B ≠ [])
    (hhexA : ∀ c ∈ A, IsHexDigit c) (hhexB : ∀ c ∈ B, IsHexDigit c) (rest : List Nat) :
    readInput (A ++ [10] ++ (B ++ 10 :: rest)) = some (A, B) := by
  have hnA : 10 ∉ A := fun hm => by
    have := hhexA 10 hm
    unfold IsHexDigit at this
    omega
  have hnB : 10 ∉ B := fun hm => by
    have := hhexB 10 hm
    unfold IsHexDigit at this
    omega
  unfold readInput
  rw [List.append_assoc, List.singleton_append]
  rw [getlineModel_eq hnA]
  have hA10 : A ++ [10] ≠ [10] := by
    intro hcon
    rcases A with _ | ⟨a, as⟩
    · exact hA rfl
    · simp at hcon
  have hvalidA : isValidHexadecimal (A ++ [10]) = true := by
    apply isValidHexadecimal_of_hex
    intro c hc
    rcases List.mem_append.mp hc with h | h
    · exact Or.inl (hhexA c h)
    · simp only [List.mem_singleton] at h; exact Or.inr h
  have hvalidB : isValidHexadecimal (B ++ [10]) = true := by
    apply isValidHexadecimal_of_hex
    intro c hc
    rcases List.mem_append.mp hc with h | h
    · exact Or.inl (hhexB c h)
    · simp only [List.mem_singleton] at h; exact Or.inr h
  have hB10 : B ++ [10] ≠ [10] := by
    intro hcon
    rcases B with _ | ⟨b, bs⟩
    · exact hB rfl
    · simp at hcon
  simp only [Option.bind_eq_bind, Option.some_bind, if_neg hA10]
  rw [getlineModel_eq hnB]
  simp only [Option.some_bind, if_neg hB10, hvalidA, hvalidB]
  simp [trimNewline_concat]

/-! ## Base-case lemmas -/

theorem toLowerC_hexDigitToInt {c : Nat} (h : IsHexDigit c) :
    hexDigitToInt (toLowerC c) = (dval c : Int) := by
  have hd := hexDigitToInt_eq_dval h
  unfold IsHexDigit at h
  rcases h with h | h | h
  · rw [toLowerC, if_neg (by omega)]
    exact hd
  · rw [toLowerC, if_neg (by omega)]
    exact hd
  · rw [toLowerC, if_pos (by omega)]
    unfold dval hexDigitToInt
    rw [if_neg (by omega : ¬(48 ≤ c + 32 ∧ c + 32 ≤ 57)),
      if_pos (by omega : 97 ≤ c + 32 ∧ c + 32 ≤ 102),
      if_neg (by omega : ¬(48 ≤ c ∧ c ≤ 57)),
      if_neg (by omega : ¬(97 ≤ c ∧ c ≤ 102)),
      if_pos (by omega : 65 ≤ c ∧ c ≤ 70)]
    omega

set_option maxRecDepth 4000 in
theorem printf02x_eq_toHexFixed2 : ∀ p : Nat, p < 256 → printf02x p = toHexFixed 2 p := by
  decide

theorem baseCaseMultiply_eq {a b : Nat} (ha : IsHexDigit a) (hb : IsHexDigit b) :
    baseCaseMultiply a b = toHexFixed 2 (dval a * dval b) := by
  unfold baseCaseMultiply
  rw [toLowerC_hexDigitToInt ha, toLowerC_hexDigitToInt hb]
  have hva := isHexDigit_dval_le ha
  have hvb := isHexDigit_dval_le hb
  have hcast : ((dval a : Int) * (dval b : Int)).toNat = dval a * dval b := by
    omega
  rw [hcast]
  exact printf02x_eq_toHexFixed2 _ (by nlinarith)

/-! ## Combiner correctness -/

theorem combine_spec {n : Nat} (hn2 : n % 2 = 0) (hpos : 0 < n)
    {r0 r1 r2 r3 p0 p1 p2 p3 : List Nat}
    (ht0 : r0.take n = p0) (ht1 : r1.take n = p1)
    (ht2 : r2.take n = p2) (ht3 : r3.take n = p3)
    (hl0 : p0.length = n) (hl1 : p1.length = n)
    (hl2 : p2.length = n) (hl3 : p3.length = n)
    (hh0 : ∀ c ∈ p0, IsHexDigit c) (hh1 : ∀ c ∈ p1, IsHexDigit c)
    (hh2 : ∀ c ∈ p2, IsHexDigit c) (hh3 : ∀ c ∈ p3, IsHexDigit c) :
    combine n r0 r1 r2 r3 =
      (toHexFixed (2 * n)
         (hexVal p0 * 16 ^ n + hexVal p1 * 16 ^ (n / 2) +
          hexVal p2 * 16 ^ (n / 2) + hexVal p3),
       intToHex
         (((hexVal p0 * 16 ^ n + hexVal p1 * 16 ^ (n / 2) +
            hexVal p2 * 16 ^ (n / 2) + hexVal p3) / 16 ^ (2 * n) : Nat) : Int)) := by
  have e0 : 2 * n - n = n := by omega
  have e1 : 2 * n - (n / 2 + n) = n / 2 := by omega
  set T := hexVal p0 * 16 ^ n + hexVal p1 * 16 ^ (n / 2) +
      hexVal p2 * 16 ^ (n / 2) + hexVal p3 with hT
  -- the four shifted buffers
  have hs0 : shiftOne 0 n r0 = p0 ++ List.replicate n 48 := by
    unfold shiftOne
    rw [if_pos rfl, ht0, e0]
  have hs1 : shiftOne 1 n r1 =
      List.replicate (n / 2) 48 ++ p1 ++ List.replicate (n / 2) 48 := by
    unfold shiftOne
    rw [if_neg (by omega), if_pos (by omega : 1 = 1 ∨ 1 = 2), ht1, e1]
  have hs2 : shiftOne 2 n r2 =
      List.replicate (n / 2) 48 ++ p2 ++ List.replicate (n / 2) 48 := by
    unfold shiftOne
    rw [if_neg (by omega), if_pos (by omega : 2 = 1 ∨ 2 = 2), ht2, e1]
  have hs3 : shiftOne 3 n r3 = List.replicate n 48 ++ p3 := by
    unfold shiftOne
    rw [if_neg (by omega), if_neg (by omega), if_pos rfl, ht3]
  -- lengths of the shifted buffers
  have hlen0 : (shiftOne 0 n r0).length = 2 * n := by
    rw [hs0]; simp [hl0]; omega
  have hlen1 : (shiftOne 1 n r1).length = 2 * n := by
    rw [hs1]; simp [hl1]; omega
  have hlen2 : (shiftOne 2 n r2).length = 2 * n := by
    rw [hs2]; simp [hl2]; omega
  have hlen3 : (shiftOne 3 n r3).length = 2 * n := by
    rw [hs3]; simp [hl3]; omega
  -- all digits of the shifted buffers are hex digits
  have hmem0 : ∀ c ∈ shiftOne 0 n r0, IsHexDigit c := by
    rw [hs0]; intro c hc
    rcases List.mem_append.mp hc with h | h
    · exact hh0 c h
    · rw [List.eq_of_mem_replicate h]; exact isHexDigit_48
  have hmem1 : ∀ c ∈ shiftOne 1 n r1, IsHexDigit c := by
    rw [hs1]; intro c hc
    rcases List.mem_append.mp hc with h | h
    · rcases List.mem_append.mp h with h | h
      · rw [List.eq_of_mem_replicate h]; exact isHexDigit_48
      · exact hh1 c h
    · rw [List.eq_of_mem_replicate h]; exact isHexDigit_48
  have hmem2 : ∀ c ∈ shiftOne 2 n r2, IsHexDigit c := by
    rw [hs2]; intro c hc
    rcases List.mem_append.mp hc with h | h
    · rcases List.mem_append.mp h with h | h
      · rw [List.eq_of_mem_replicate h]; exact isHexDigit_48
      · exact hh2 c h
    · rw [List.eq_of_mem_replicate h]; exact isHexDigit_48
  have hmem3 : ∀ c ∈ shiftOne 3 n r3, IsHexDigit c := by
    rw [hs3]; intro c hc
    rcases List.mem_append.mp hc with h | h
    · rw [List.eq_of_mem_replicate h]; exact isHexDigit_48
    · exact hh3 c h
  -- values of the shifted buffers
  have hv0 : hexVal (shiftOne 0 n r0) = hexVal p0 * 16 ^ n := by
    rw [hs0, hexVal_append_replicate_48]
  have hv1 : hexVal (shiftOne 1 n r1) = hexVal p1 * 16 ^ (n / 2) := by
    rw [hs1, List.append_assoc, hexVal_replicate_48_append, hexVal_append_replicate_48]
  have hv2 : hexVal (shiftOne 2 n r2) = hexVal p2 * 16 ^ (n / 2) := by
    rw [hs2, List.append_assoc, hexVal_replicate_48_append, hexVal_append_replicate_48]
  have hv3 : hexVal (shiftOne 3 n r3) = hexVal p3 := by
    rw [hs3, hexVal_replicate_48_append]
  -- apply the summation lemma
  unfold combine
  have hsum := sumColumns_spec (shiftOne 0 n r0).reverse (shiftOne 1 n r1).reverse
    (shiftOne 2 n r2).reverse (shiftOne 3 n r3).reverse 48
    (by simp [hlen0, hlen1]) (by simp [hlen0, hlen2]) (by simp [hlen0, hlen3])
    (fun c hc => hmem0 c (List.mem_reverse.mp hc))
    (fun c hc => hmem1 c (List.mem_reverse.mp hc))
    (fun c hc => hmem2 c (List.mem_reverse.mp hc))
    (fun c hc => hmem3 c (List.mem_reverse.mp hc))
    canonical_48
  have hTsum : dval 48 + valL (shiftOne 0 n r0).reverse + valL (shiftOne 1 n r1).reverse +
      valL (shiftOne 2 n r2).reverse + valL (shiftOne 3 n r3).reverse = T := by
    have q0 : valL (shiftOne 0 n r0).reverse = hexVal (shiftOne 0 n r0) := rfl
    have q1 : valL (shiftOne 1 n r1).reverse = hexVal (shiftOne 1 n r1) := rfl
    have q2 : valL (shiftOne 2 n r2).reverse = hexVal (shiftOne 2 n r2) := rfl
    have q3 : valL (shiftOne 3 n r3).reverse = hexVal (shiftOne 3 n r3) := rfl
    rw [q0, q1, q2, q3, hv0, hv1, hv2, hv3, dval_48, hT]
    omega
  rw [hTsum] at hsum
  have hrevlen : (shiftOne 0 n r0).reverse.length = 2 * n := by simp [hlen0]
  rw [hrevlen] at hsum
  simp only [hsum]
  rfl

/-! ## Whole-program correctness -/

theorem hexVal_singleton (a : Nat) : hexVal [a] = dval a := by
  simp [hexVal, valL]

theorem hexVal_take_drop (A : List Nat) (mid : Nat) :
    hexVal A = hexVal (A.take mid) * 16 ^ (A.drop mid).length + hexVal (A.drop mid) := by
  conv_lhs => rw [← List.take_append_drop mid A]
  rw [hexVal_append]

/-- Parsing a worker's stdin `"A\nB\n"` and running the body. -/
theorem intmulProg_two_lines {A B : List Nat} (hA : A ≠ []) (hB : B ≠ [])
    (hhexA : ∀ c ∈ A, IsHexDigit c) (hhexB : ∀ c ∈ B, IsHexDigit c) (f : Nat) :
    intmulProg (f + 1) (A ++ [10] ++ B ++ [10]) = intmulStep (intmulProg f) A B := by
  show (readInput (A ++ [10] ++ B ++ [10])).bind _ = _
  have he : A ++ [10] ++ B ++ [10] = A ++ [10] ++ (B ++ 10 :: []) := by
    simp [List.append_assoc]
  rw [he, readInput_wellformed hA hB hhexA hhexB []]
  rfl

/-- The key induction: on equal power-of-two length hex operands, one
invocation body computes the fixed-width product. -/
theorem intmulStep_correct : ∀ (k fuel : Nat) (A B : List Nat),
    A.length = 2 ^ k → B.length = 2 ^ k →
    (∀ c ∈ A, IsHexDigit c) → (∀ c ∈ B, IsHexDigit c) →
    k ≤ fuel →
    intmulStep (intmulProg fuel) A B =
      some (toHexFixed (2 * 2 ^ k) (hexVal A * hexVal B) ++ [10]) := by
  intro k
  induction k with
  | zero =>
    intro fuel A B hlA hlB hhA hhB _
    simp only [pow_zero] at hlA hlB
    obtain ⟨a, rfl⟩ := List.length_eq_one.mp hlA
    obtain ⟨b, rfl⟩ := List.length_eq_one.mp hlB
    have hpad : padAndAlign [a] [b] = ([a], [b]) :=
      padAndAlign_id (by simp) ⟨0, by simp⟩
    unfold intmulStep
    rw [hpad]
    simp only [List.length_singleton]
    rw [if_neg (by omega)]
    rw [if_true]
    have hda : IsHexDigit a := hhA a (by simp)
    have hdb : IsHexDigit b := hhB b (by simp)
    rw [show ([a] : List Nat).headD 0 = a from rfl, show ([b] : List Nat).headD 0 = b from rfl]
    rw [baseCaseMultiply_eq hda hdb, hexVal_singleton, hexVal_singleton]
    norm_num
  | succ k ih =>
    intro fuel A B hlA hlB hhA hhB hfuel
    cases fuel with
    | zero => omega
    | succ f =>
      set n := 2 ^ (k + 1) with hn
      have heven : n = 2 * 2 ^ k := by rw [hn]; ring
      have hpk : 0 < 2 ^ k := Nat.pos_pow_of_pos _ (by omega)
      have hn2 : 0 < n := by omega
      have hn1 : 1 < n := by omega
      have hmid : n / 2 = 2 ^ k := by omega
      have hpad : padAndAlign A B = (A, B) :=
        padAndAlign_id (by rw [hlA, hlB]) ⟨k + 1, by rw [hlA, hn]⟩
      -- halves: lengths, non-emptiness, digit character sets
      have hAhlen : (A.take (n / 2)).length = 2 ^ k := by
        rw [List.length_take, hlA, Nat.min_eq_left (by omega), hmid]
      have hAllen : (A.drop (n / 2)).length = 2 ^ k := by
        rw [List.length_drop, hlA]
        omega
      have hBhlen : (B.take (n / 2)).length = 2 ^ k := by
        rw [List.length_take, hlB, Nat.min_eq_left (by omega), hmid]
      have hBllen : (B.drop (n / 2)).length = 2 ^ k := by
        rw [List.length_drop, hlB]
        omega
      have hAhne : A.take (n / 2) ≠ [] := by
        intro hcon
        rw [← List.length_eq_zero] at hcon
        omega
      have hAlne : A.drop (n / 2) ≠ [] := by
        intro hcon
        rw [← List.length_eq_zero] at hcon
        omega
      have hBhne : B.take (n / 2) ≠ [] := by
        intro hcon
        rw [← List.length_eq_zero] at hcon
        omega
      have hBlne : B.drop (n / 2) ≠ [] := by
        intro hcon
        rw [← List.length_eq_zero] at hcon
        omega
      have hhAh : ∀ c ∈ A.take (n / 2), IsHexDigit c :=
        fun c hc => hhA c (List.take_subset _ _ hc)
      have hhAl : ∀ c ∈ A.drop (n / 2), IsHexDigit c :=
        fun c hc => hhA c (List.drop_subset _ _ hc)
      have hhBh : ∀ c ∈ B.take (n / 2), IsHexDigit c :=
        fun c hc => hhB c (List.take_subset _ _ hc)
      have hhBl : ∀ c ∈ B.drop (n / 2), IsHexDigit c :=
        fun c hc => hhB c (List.drop_subset _ _ hc)
      -- the four children, via the induction hypothesis
      have hc0 : intmulProg (f + 1) (A.take (n / 2) ++ [10] ++ B.take (n / 2) ++ [10]) =
          some (toHexFixed (2 * 2 ^ k) (hexVal (A.take (n / 2)) * hexVal (B.take (n / 2))) ++ [10]) := by
        rw [intmulProg_two_lines hAhne hBhne hhAh hhBh f]
        exact ih f _ _ hAhlen hBhlen hhAh hhBh (by omega)
      have hc1 : intmulProg (f + 1) (A.take (n / 2) ++ [10] ++ B.drop (n / 2) ++ [10]) =
          some (toHexFixed (2 * 2 ^ k) (hexVal (A.take (n / 2)) * hexVal (B.drop (n / 2))) ++ [10]) := by
        rw [intmulProg_two_lines hAhne hBlne hhAh hhBl f]
        exact ih f _ _ hAhlen hBllen hhAh hhBl (by omega)
      have hc2 : intmulProg (f + 1) (A.drop (n / 2) ++ [10] ++ B.take (n / 2) ++ [10]) =
          some (toHexFixed (2 * 2 ^ k) (hexVal (A.drop (n / 2)) * hexVal (B.take (n / 2))) ++ [10]) := by
        rw [intmulProg_two_lines hAlne hBhne hhAl hhBh f]
        exact ih f _ _ hAllen hBhlen hhAl hhBh (by omega)
      have hc3 : intmulProg (f + 1) (A.drop (n / 2) ++ [10] ++ B.drop (n / 2) ++ [10]) =
          some (toHexFixed (2 * 2 ^ k) (hexVal (A.drop (n / 2)) * hexVal (B.drop (n / 2))) ++ [10]) := by
        rw [intmulProg_two_lines hAlne hBlne hhAl hhBl f]
        exact ih f _ _ hAllen hBllen hhAl hhBl (by omega)
      -- abbreviations for the four result strings
      set P0 := toHexFixed (2 * 2 ^ k) (hexVal (A.take (n / 2)) * hexVal (B.take (n / 2))) with hP0
      set P1 := toHexFixed (2 * 2 ^ k) (hexVal (A.take (n / 2)) * hexVal (B.drop (n / 2))) with hP1
      set P2 := toHexFixed (2 * 2 ^ k) (hexVal (A.drop (n / 2)) * hexVal (B.take (n / 2))) with hP2
      set P3 := toHexFixed (2 * 2 ^ k) (hexVal (A.drop (n / 2)) * hexVal (B.drop (n / 2))) with hP3
      have hPlen : ∀ m : Nat, (toHexFixed (2 * 2 ^ k) m).length = n := by
        intro m
        rw [toHexFixed_length]
        omega
      have hPno10 : ∀ m : Nat, (10 : Nat) ∉ toHexFixed (2 * 2 ^ k) m := by
        intro m hmem
        exact (toHexFixed_mem hmem).2.2 rfl
      have hg0 : getlineModel (P0 ++ [10]) = some (P0 ++ [10], []) := by
        rw [hP0]
        simpa using getlineModel_eq (hPno10 _) []
      have hg1 : getlineModel (P1 ++ [10]) = some (P1 ++ [10], []) := by
        rw [hP1]
        simpa using getlineModel_eq (hPno10 _) []
      have hg2 : getlineModel (P2 ++ [10]) = some (P2 ++ [10], []) := by
        rw [hP2]
        simpa using getlineModel_eq (hPno10 _) []
      have hg3 : getlineModel (P3 ++ [10]) = some (P3 ++ [10], []) := by
        rw [hP3]
        simpa using getlineModel_eq (hPno10 _) []
      -- assemble the step
      unfold intmulStep
      rw [hpad]
      simp only
      rw [hlA, if_pos hn1]
      simp only [hc0, hc1, hc2, hc3, Option.some_bind, hg0, hg1, hg2, hg3]
      -- the combine call
      have htake0 : (P0 ++ [10]).take n = P0 := by
        conv_lhs => rw [← hPlen (hexVal (A.take (n / 2)) * hexVal (B.take (n / 2))), ← hP0]
        exact List.take_left _ _
      have htake1 : (P1 ++ [10]).take n = P1 := by
        conv_lhs => rw [← hPlen (hexVal (A.take (n / 2)) * hexVal (B.drop (n / 2))), ← hP1]
        exact List.take_left _ _
      have htake2 : (P2 ++ [10]).take n = P2 := by
        conv_lhs => rw [← hPlen (hexVal (A.drop (n / 2)) * hexVal (B.take (n / 2))), ← hP2]
        exact List.take_left _ _
      have htake3 : (P3 ++ [10]).take n = P3 := by
        conv_lhs => rw [← hPlen (hexVal (A.drop (n / 2)) * hexVal (B.drop (n / 2))), ← hP3]
        exact List.take_left _ _
      have hl0 : P0.length = n := by rw [hP0]; exact hPlen _
      have hl1 : P1.length = n := by rw [hP1]; exact hPlen _
      have hl2 : P2.length = n := by rw [hP2]; exact hPlen _
      have hl3 : P3.length = n := by rw [hP3]; exact hPlen _
      have hm0 : ∀ c ∈ P0, IsHexDigit c := by
        rw [hP0]; exact fun c hc => (toHexFixed_mem hc).1
      have hm1 : ∀ c ∈ P1, IsHexDigit c := by
        rw [hP1]; exact fun c hc => (toHexFixed_mem hc).1
      have hm2 : ∀ c ∈ P2, IsHexDigit c := by
        rw [hP2]; exact fun c hc => (toHexFixed_mem hc).1
      have hm3 : ∀ c ∈ P3, IsHexDigit c := by
        rw [hP3]; exact fun c hc => (toHexFixed_mem hc).1
      have hcomb := @combine_spec n (by omega) hn2
        (P0 ++ [10]) (P1 ++ [10]) (P2 ++ [10]) (P3 ++ [10]) P0 P1 P2 P3
        htake0 htake1 htake2 htake3 hl0 hl1 hl2 hl3 hm0 hm1 hm2 hm3
      simp only [hcomb]
      -- value bookkeeping
      have hvAh : hexVal (A.take (n / 2)) < 16 ^ 2 ^ k := by
        have := hexVal_lt hhAh
        rwa [hAhlen] at this
      have hvAl : hexVal (A.drop (n / 2)) < 16 ^ 2 ^ k := by
        have := hexVal_lt hhAl
        rwa [hAllen] at this
      have hvBh : hexVal (B.take (n / 2)) < 16 ^ 2 ^ k := by
        have := hexVal_lt hhBh
        rwa [hBhlen] at this
      have hvBl : hexVal (B.drop (n / 2)) < 16 ^ 2 ^ k := by
        have := hexVal_lt hhBl
        rwa [hBllen] at this
      have hfit : ∀ x y : Nat, x < 16 ^ 2 ^ k → y < 16 ^ 2 ^ k →
          x * y < 16 ^ (2 * 2 ^ k) := by
        intro x y hx hy
        rw [two_mul, pow_add]
        exact Nat.mul_lt_mul_of_lt_of_lt hx hy
      have hvP0 : hexVal P0 = hexVal (A.take (n / 2)) * hexVal (B.take (n / 2)) := by
        rw [hP0]
        exact hexVal_toHexFixed_of_lt (hfit _ _ hvAh hvBh)
      have hvP1 : hexVal P1 = hexVal (A.take (n / 2)) * hexVal (B.drop (n / 2)) := by
        rw [hP1]
        exact hexVal_toHexFixed_of_lt (hfit _ _ hvAh hvBl)
      have hvP2 : hexVal P2 = hexVal (A.drop (n / 2)) * hexVal (B.take (n / 2)) := by
        rw [hP2]
        exact hexVal_toHexFixed_of_lt (hfit _ _ hvAl hvBh)
      have hvP3 : hexVal P3 = hexVal (A.drop (n / 2)) * hexVal (B.drop (n / 2)) := by
        rw [hP3]
        exact hexVal_toHexFixed_of_lt (hfit _ _ hvAl hvBl)
      -- the column total is the full product
      have hsplitA : hexVal A = hexVal (A.take (n / 2)) * 16 ^ 2 ^ k + hexVal (A.drop (n / 2)) := by
        have := hexVal_take_drop A (n / 2)
        rwa [hAllen] at this
      have hsplitB : hexVal B = hexVal (B.take (n / 2)) * 16 ^ 2 ^ k + hexVal (B.drop (n / 2)) := by
        have := hexVal_take_drop B (n / 2)
        rwa [hBllen] at this
      have hT : hexVal P0 * 16 ^ n + hexVal P1 * 16 ^ (n / 2) +
          hexVal P2 * 16 ^ (n / 2) + hexVal P3 = hexVal A * hexVal B := by
        rw [hvP0, hvP1, hvP2, hvP3, hsplitA, hsplitB, hmid]
        have h16n : 16 ^ n = 16 ^ 2 ^ k * 16 ^ 2 ^ k := by
          rw [heven, two_mul, pow_add]
        rw [h16n]
        ring
      rw [hT]

/-! ## Remaining helper lemmas -/

theorem padAndAlign_idem (a b : List Nat) :
    padAndAlign (padAndAlign a b).1 (padAndAlign a b).2 = padAndAlign a b := by
  have hlen := padAndAlign_length a b
  exact padAndAlign_id (by rw [hlen.1, hlen.2]) (by rw [hlen.1]; exact computeMaxLength_pow2 _ _)

theorem intmulStep_pad (rec : List Nat → Option (List Nat)) (a b : List Nat) :
    intmulStep rec a b = intmulStep rec (padAndAlign a b).1 (padAndAlign a b).2 := by
  conv_rhs => rw [intmulStep]
  rw [padAndAlign_idem]
  rfl

theorem getlineModel_inv {s : List Nat} {q : List Nat × List Nat}
    (h : getlineModel s = some q) : q = splitAtNewline s := by
  unfold getlineModel at h
  split at h
  · cases h
  · exact (Option.some.inj h).symm

theorem mem_of_mem_trimNewline {s : List Nat} {c : Nat} (h : c ∈ trimNewline s) :
    c ∈ s := by
  unfold trimNewline at h
  split at h
  · exact List.dropLast_subset _ h
  · exact h

theorem isValidHexadecimal_false {s : List Nat} {c : Nat} (hc : c ∈ s)
    (hnh : ¬ IsHexDigit c) (hn10 : c ≠ 10) : isValidHexadecimal s = false := by
  apply Bool.eq_false_iff.mpr
  intro htrue
  unfold isValidHexadecimal at htrue
  rw [List.all_eq_true] at htrue
  have hcc := htrue c hc
  simp only [Bool.or_eq_true, Bool.and_eq_true, decide_eq_true_eq] at hcc
  unfold IsHexDigit at hnh
  rcases hcc with ((h | h) | h) | h
  · exact hnh (Or.inl h)
  · exact hnh (Or.inr (Or.inl h))
  · exact hnh (Or.inr (Or.inr h))
  · exact hn10 h

theorem toHexFixed_two (p : Nat) (hp : p < 256) :
    toHexFixed 2 p = [intToHex ((p / 16 : Nat) : Int), intToHex ((p % 16 : Nat) : Int)] := by
  have hstep : toHexFixedL 2 p =
      [intToHex ((p % 16 : Nat) : Int), intToHex ((p / 16 % 16 : Nat) : Int)] := rfl
  unfold toHexFixed
  rw [hstep, Nat.mod_eq_of_lt (show p / 16 < 16 by omega)]
  rfl

/-! ## Claim theorems -/

/-- C3: `padAndAlignNumbers` computes `maxLength` as the smallest power of
two greater than or equal to `max(len(A), len(B))` and left-pads both
operand strings with `'0'` (48) to exactly that length, so non-empty input
pairs become pairs of equal power-of-two length. -/
theorem claim_C3_normalizer (A B : List Nat) (hA : A ≠ []) (hB : B ≠ []) :
    ∃ M, M = computeMaxLength A.length B.length ∧
      IsPow2 M ∧ max A.length B.length ≤ M ∧
      (∀ p, IsPow2 p → max A.length B.length ≤ p → M ≤ p) ∧
      (padAndAlign A B).1 = List.replicate (M - A.length) 48 ++ A ∧
      (padAndAlign A B).2 = List.replicate (M - B.length) 48 ++ B ∧
      (padAndAlign A B).1.length = M ∧ (padAndAlign A B).2.length = M := by
  refine ⟨computeMaxLength A.length B.length, rfl, computeMaxLength_pow2 _ _,
    computeMaxLength_ge _ _, fun p hp hge => computeMaxLength_min hp hge,
    rfl, rfl, (padAndAlign_length A B).1, (padAndAlign_length A B).2⟩

/-- C3 witness: the spec's own example, `"3"` and `"12"`. -/
theorem claim_C3_witness :
    ([51] : List Nat) ≠ [] ∧ ([49, 50] : List Nat) ≠ [] ∧
    ∃ M, M = computeMaxLength ([51] : List Nat).length ([49, 50] : List Nat).length ∧
      IsPow2 M ∧ max ([51] : List Nat).length ([49, 50] : List Nat).length ≤ M ∧
      (∀ p, IsPow2 p → max ([51] : List Nat).length ([49, 50] : List Nat).length ≤ p → M ≤ p) ∧
      (padAndAlign [51] [49, 50]).1 = List.replicate (M - ([51] : List Nat).length) 48 ++ [51] ∧
      (padAndAlign [51] [49, 50]).2 = List.replicate (M - ([49, 50] : List Nat).length) 48 ++ [49, 50] ∧
      (padAndAlign [51] [49, 50]).1.length = M ∧ (padAndAlign [51] [49, 50]).2.length = M :=
  ⟨by decide, by decide,
    claim_C3_normalizer [51] [49, 50] (by decide) (by decide)⟩

/-- C4: one column of the combiner's summation loop — the sequential
per-addend accumulation through `addHexDigits` — equals the column formula:
digit `(d0+d1+d2+d3+carry) % 16`, outgoing carry `(d0+d1+d2+d3+carry) / 16`,
for every choice of hex digits and incoming carry digit. -/
theorem claim_C4_column_addition (d0 d1 d2 d3 carry : Nat)
    (h0 : IsHexDigit d0) (h1 : IsHexDigit d1) (h2 : IsHexDigit d2)
    (h3 : IsHexDigit d3) (hc : IsHexDigit carry) :
    columnStep carry d0 d1 d2 d3 =
      (intToHex (((dval d0 + dval d1 + dval d2 + dval d3 + dval carry) % 16 : Nat) : Int),
       intToHex (((dval d0 + dval d1 + dval d2 + dval d3 + dval carry) / 16 : Nat) : Int)) := by
  rw [columnStep_spec hc h0 h1 h2 h3]
  have e : dval carry + dval d0 + dval d1 + dval d2 + dval d3 =
      dval d0 + dval d1 + dval d2 + dval d3 + dval carry := by ring
  rw [e]

/-- C4 witness: five `f` digits (values 15): digit `(75 % 16) = 11 = 'b'`,
carry `75 / 16 = 4`. -/
theorem claim_C4_witness :
    IsHexDigit 102 ∧ columnStep 102 102 102 102 102 = (98, 52) := by
  constructor
  · decide
  · rw [claim_C4_column_addition 102 102 102 102 102 (by decide) (by decide)
      (by decide) (by decide) (by decide)]
    decide

/-- C5: the shift placement (intmul.c lines 508-541): partial product 0
(high * high) gets `n` zero digits appended, products 1 and 2 are embedded
between `n/2` zeros on each side, product 3 (low * low) gets `n` zeros
prepended; each field is exactly `2n` digits wide. -/
theorem claim_C5_shift_placement (n : Nat) (r : List Nat)
    (hlen : r.length = n) (heven : n % 2 = 0) :
    shiftOne 0 n r = r ++ List.replicate n 48 ∧
    shiftOne 1 n r = List.replicate (n / 2) 48 ++ r ++ List.replicate (n / 2) 48 ∧
    shiftOne 2 n r = List.replicate (n / 2) 48 ++ r ++ List.replicate (n / 2) 48 ∧
    shiftOne 3 n r = List.replicate n 48 ++ r ∧
    (shiftOne 0 n r).length = 2 * n ∧ (shiftOne 1 n r).length = 2 * n ∧
    (shiftOne 2 n r).length = 2 * n ∧ (shiftOne 3 n r).length = 2 * n := by
  have htake : r.take n = r := by
    rw [← hlen]
    exact List.take_length r
  have e0 : 2 * n - n = n := by omega
  have e1 : 2 * n - (n / 2 + n) = n / 2 := by omega
  have hs0 : shiftOne 0 n r = r ++ List.replicate n 48 := by
    unfold shiftOne
    rw [if_pos rfl, htake, e0]
  have hs1 : shiftOne 1 n r = List.replicate (n / 2) 48 ++ r ++ List.replicate (n / 2) 48 := by
    unfold shiftOne
    rw [if_neg (by omega), if_pos (by omega : 1 = 1 ∨ 1 = 2), htake, e1]
  have hs2 : shiftOne 2 n r = List.replicate (n / 2) 48 ++ r ++ List.replicate (n / 2) 48 := by
    unfold shiftOne
    rw [if_neg (by omega), if_pos (by omega : 2 = 1 ∨ 2 = 2), htake, e1]
  have hs3 : shiftOne 3 n r = List.replicate n 48 ++ r := by
    unfold shiftOne
    rw [if_neg (by omega), if_neg (by omega), if_pos rfl, htake]
  refine ⟨hs0, hs1, hs2, hs3, ?_, ?_, ?_, ?_⟩ <;>
    simp only [hs0, hs1, hs2, hs3, List.length_append, List.length_replicate, hlen] <;>
    omega

/-- C5 witness: a 2-digit partial product `"0a"`. -/
theorem claim_C5_witness :
    ([48, 97] : List Nat).length = 2 ∧
    shiftOne 0 2 [48, 97] = [48, 97] ++ List.replicate 2 48 ∧
    shiftOne 1 2 [48, 97] =
      List.replicate 1 48 ++ [48, 97] ++ List.replicate 1 48 ∧
    shiftOne 3 2 [48, 97] = List.replicate 2 48 ++ [48, 97] := by
  have h := claim_C5_shift_placement 2 [48, 97] (by decide) (by decide)
  exact ⟨by decide, h.1, h.2.1, h.2.2.2.1⟩

/-- C6: the base case multiplies two single hex digits exactly, printing the
product as exactly two lowercase hex digits, most-significant first. -/
theorem claim_C6_base_case (a b : Nat) (ha : IsHexDigit a) (hb : IsHexDigit b) :
    baseCaseMultiply a b =
      [intToHex ((dval a * dval b / 16 : Nat) : Int),
       intToHex ((dval a * dval b % 16 : Nat) : Int)] ∧
    (baseCaseMultiply a b).length = 2 ∧
    hexVal (baseCaseMultiply a b) = dval a * dval b ∧
    (∀ c ∈ baseCaseMultiply a b, IsLowerHexDigit c) := by
  have hva := isHexDigit_dval_le ha
  have hvb := isHexDigit_dval_le hb
  have hlt : dval a * dval b < 256 := by nlinarith
  have hbc := baseCaseMultiply_eq ha hb
  refine ⟨?_, ?_, ?_, ?_⟩
  · rw [hbc]
    exact toHexFixed_two _ hlt
  · rw [hbc, toHexFixed_length]
  · rw [hbc]
    exact hexVal_toHexFixed_of_lt (by
      calc dval a * dval b < 256 := hlt
        _ = 16 ^ 2 := by norm_num)
  · rw [hbc]
    exact fun c hc => (toHexFixed_mem hc).2.1

/-- C6 witness: `multiply("f","f")` prints `"e1"` (102 is `'f'`, 101 `'e'`,
49 `'1'`). -/
theorem claim_C6_witness :
    IsHexDigit 102 ∧ baseCaseMultiply 102 102 = [101, 49] := by
  constructor
  · decide
  · rw [(claim_C6_base_case 102 102 (by decide) (by decide)).1]
    decide

/-- C7: normalization is idempotent — on a pair that already has equal
power-of-two length, `padAndAlignNumbers` returns the pair unchanged. -/
theorem claim_C7_idempotent (A B : List Nat) (hlen : A.length = B.length)
    (hpow : IsPow2 A.length) : padAndAlign A B = (A, B) :=
  padAndAlign_id hlen hpow

/-- C7 witness: an already-normalized pair of length 2. -/
theorem claim_C7_witness :
    ([97, 98] : List Nat).length = ([99, 100] : List Nat).length ∧
    padAndAlign [97, 98] [99, 100] = ([97, 98], [99, 100]) :=
  ⟨by decide, claim_C7_idempotent [97, 98] [99, 100] (by decide) ⟨1, by decide⟩⟩

/-- C10: the validator accepts the empty string and newline characters at
any position: any string over hex digits and `'\n'` (10) passes. -/
theorem claim_C10_validator_lenient :
    isValidHexadecimal [] = true ∧
    ∀ s : List Nat, (∀ c ∈ s, IsHexDigit c ∨ c = 10) →
      isValidHexadecimal s = true :=
  ⟨rfl, fun _ h => isValidHexadecimal_of_hex h⟩

/-- C10 witness: `"a\nb"` — a newline in the middle is accepted. -/
theorem claim_C10_witness : isValidHexadecimal [97, 10, 98] = true :=
  claim_C10_validator_lenient.2 [97, 10, 98] (by decide)

/-- C1: on two valid hexadecimal input lines the program writes exactly the
product, rendered in lowercase hex and left-padded with zero digits to
length `2 * nextPow2(max(len A, len B))`, followed by a newline, and exits
successfully.  `M` is pinned as the smallest power of two that is at least
`max(len A, len B)`; the fuel only needs to exceed the recursion depth. -/
theorem claim_C1_full_product_output (A B : List Nat) (hA : A ≠ []) (hB : B ≠ [])
    (hhexA : ∀ c ∈ A, IsHexDigit c) (hhexB : ∀ c ∈ B, IsHexDigit c)
    (fuel : Nat) (hfuel : computeMaxLength A.length B.length + 1 ≤ fuel) :
    ∃ M, M = computeMaxLength A.length B.length ∧
      IsPow2 M ∧ max A.length B.length ≤ M ∧
      (∀ p, IsPow2 p → max A.length B.length ≤ p → M ≤ p) ∧
      intmulProg fuel (A ++ [10] ++ B ++ [10]) =
        some (toHexFixed (2 * M) (hexVal A * hexVal B) ++ [10]) ∧
      (∀ c ∈ toHexFixed (2 * M) (hexVal A * hexVal B), IsLowerHexDigit c) := by
  obtain ⟨k, hk⟩ := computeMaxLength_pow2 A.length B.length
  set M := computeMaxLength A.length B.length with hM
  refine ⟨M, rfl, ⟨k, hk⟩, computeMaxLength_ge _ _,
    fun p hp hge => computeMaxLength_min hp hge, ?_,
    fun c hc => (toHexFixed_mem hc).2.1⟩
  cases fuel with
  | zero => omega
  | succ F =>
    rw [intmulProg_two_lines hA hB hhexA hhexB F]
    rw [intmulStep_pad]
    have hlen := padAndAlign_length A B
    have hpadAlen : (padAndAlign A B).1.length = 2 ^ k := by
      rw [hlen.1, ← hM, hk]
    have hpadBlen : (padAndAlign A B).2.length = 2 ^ k := by
      rw [hlen.2, ← hM, hk]
    have hhex1 : ∀ c ∈ (padAndAlign A B).1, IsHexDigit c := by
      unfold padAndAlign
      intro c hc
      rcases List.mem_append.mp hc with h | h
      · rw [List.eq_of_mem_replicate h]
        exact isHexDigit_48
      · exact hhexA c h
    have hhex2 : ∀ c ∈ (padAndAlign A B).2, IsHexDigit c := by
      unfold padAndAlign
      intro c hc
      rcases List.mem_append.mp hc with h | h
      · rw [List.eq_of_mem_replicate h]
        exact isHexDigit_48
      · exact hhexB c h
    have hkF : k ≤ F := by
      have h1 : k < 2 ^ k := Nat.lt_two_pow k
      omega
    rw [intmulStep_correct k F _ _ hpadAlen hpadBlen hhex1 hhex2 hkF]
    have hv := hexVal_padAndAlign A B
    rw [hv.1, hv.2, ← hk]

/-- C1 witness: `"1a" * "ab"`: the spec example, at fuel 3. -/
theorem claim_C1_witness :
    intmulProg 3 (([49, 97] : List Nat) ++ [10] ++ [97, 98] ++ [10]) =
      some (toHexFixed (2 * computeMaxLength ([49, 97] : List Nat).length
          ([97, 98] : List Nat).length)
        (hexVal [49, 97] * hexVal [97, 98]) ++ [10]) := by
  obtain ⟨M, hMeqQ, _, _, _, hout, _⟩ := claim_C1_full_product_output [49, 97] [97, 98]
    (by decide) (by decide) (by decide) (by decide) 3 (by decide)
  rw [hMeqQ] at hout
  exact hout

/-- C2 counterexample: with the first child failed (`[1, 0, 0, 0]`), the
parent performs a single `waitpid` and exits — it does not collect the
remaining three children, refuting the claim that all four are always
collected before the failure is propagated. -/
theorem claim_C2_counterexample :
    (∃ s ∈ ([1, 0, 0, 0] : List Nat), s ≠ 0) ∧
    waitForChildren [1, 0, 0, 0] = (1, false) ∧
    (waitForChildren [1, 0, 0, 0]).1 ≠ 4 := by decide

/-- C2 amended: `waitForChildren` collects the children in index order and
exits on the first nonzero status, leaving all later children uncollected:
the number of `waitpid` calls is the zero-status run length plus one on
failure, and the full count only when every child succeeded. -/
theorem claim_C2_amended_collect_prefix (statuses : List Nat) :
    waitForChildren statuses =
      if (statuses.takeWhile (fun x => x == 0)).length = statuses.length
      then (statuses.length, true)
      else ((statuses.takeWhile (fun x => x == 0)).length + 1, false) := by
  induction statuses with
  | nil => simp [waitForChildren]
  | cons s rest ih =>
    by_cases hs : s = 0
    · subst hs
      have hw : waitForChildren (0 :: rest) =
          ((waitForChildren rest).1 + 1, (waitForChildren rest).2) := by
        simp [waitForChildren]
      have htw : (0 :: rest).takeWhile (fun x => x == 0) =
          0 :: rest.takeWhile (fun x => x == 0) := by
        simp [List.takeWhile_cons]
      rw [hw, ih, htw]
      by_cases htl : (rest.takeWhile (fun x => x == 0)).length = rest.length
      · rw [if_pos htl, if_pos (by simp only [List.length_cons, htl])]
        simp
      · rw [if_neg htl, if_neg (by simp only [List.length_cons]; omega)]
        simp
    · have hw : waitForChildren (s :: rest) = (1, false) := by
        simp [waitForChildren, hs]
      have htw : (s :: rest).takeWhile (fun x => x == 0) = [] := by
        simp [List.takeWhile_cons, hs]
      rw [hw, htw]
      rw [if_neg (by simp)]
      simp

/-- C8: for well-formed inputs — the four partial products being the true
half-products of two `n = 2^(k+1)`-digit hex operands — the final value of
`carry_digit` after the most-significant column of the combiner is `'0'`
(48), because the true product fits in `2n` digits. -/
theorem claim_C8_final_carry_zero (A B : List Nat) (k : Nat)
    (hlA : A.length = 2 ^ (k + 1)) (hlB : B.length = 2 ^ (k + 1))
    (hhA : ∀ c ∈ A, IsHexDigit c) (hhB : ∀ c ∈ B, IsHexDigit c) :
    (combine (2 ^ (k + 1))
      (toHexFixed (2 ^ (k + 1)) (hexVal (A.take (2 ^ k)) * hexVal (B.take (2 ^ k))))
      (toHexFixed (2 ^ (k + 1)) (hexVal (A.take (2 ^ k)) * hexVal (B.drop (2 ^ k))))
      (toHexFixed (2 ^ (k + 1)) (hexVal (A.drop (2 ^ k)) * hexVal (B.take (2 ^ k))))
      (toHexFixed (2 ^ (k + 1)) (hexVal (A.drop (2 ^ k)) * hexVal (B.drop (2 ^ k))))).2
      = 48 := by
  set n := 2 ^ (k + 1) with hn
  have heven : n = 2 * 2 ^ k := by rw [hn]; ring
  have hpk : 0 < 2 ^ k := Nat.pos_pow_of_pos _ (by omega)
  have hn2 : 0 < n := by omega
  have hmid : n / 2 = 2 ^ k := by omega
  -- lengths and digit sets of the halves
  have hAhlen : (A.take (2 ^ k)).length = 2 ^ k := by
    rw [List.length_take, hlA]
    exact Nat.min_eq_left (by omega)
  have hAllen : (A.drop (2 ^ k)).length = 2 ^ k := by
    rw [List.length_drop, hlA]
    omega
  have hBhlen : (B.take (2 ^ k)).length = 2 ^ k := by
    rw [List.length_take, hlB]
    exact Nat.min_eq_left (by omega)
  have hBllen : (B.drop (2 ^ k)).length = 2 ^ k := by
    rw [List.length_drop, hlB]
    omega
  have hhAh : ∀ c ∈ A.take (2 ^ k), IsHexDigit c :=
    fun c hc => hhA c (List.take_subset _ _ hc)
  have hhAl : ∀ c ∈ A.drop (2 ^ k), IsHexDigit c :=
    fun c hc => hhA c (List.drop_subset _ _ hc)
  have hhBh : ∀ c ∈ B.take (2 ^ k), IsHexDigit c :=
    fun c hc => hhB c (List.take_subset _ _ hc)
  have hhBl : ∀ c ∈ B.drop (2 ^ k), IsHexDigit c :=
    fun c hc => hhB c (List.drop_subset _ _ hc)
  -- partial-product strings
  have hPlen : ∀ m : Nat, (toHexFixed n m).length = n := fun m => toHexFixed_length n m
  have htake : ∀ m : Nat, (toHexFixed n m).take n = toHexFixed n m := by
    intro m
    have hq := List.take_length (toHexFixed n m)
    rwa [hPlen m] at hq
  have hPmem : ∀ m : Nat, ∀ c ∈ toHexFixed n m, IsHexDigit c :=
    fun m c hc => (toHexFixed_mem hc).1
  set P0 := toHexFixed n (hexVal (A.take (2 ^ k)) * hexVal (B.take (2 ^ k))) with hP0
  set P1 := toHexFixed n (hexVal (A.take (2 ^ k)) * hexVal (B.drop (2 ^ k))) with hP1
  set P2 := toHexFixed n (hexVal (A.drop (2 ^ k)) * hexVal (B.take (2 ^ k))) with hP2
  set P3 := toHexFixed n (hexVal (A.drop (2 ^ k)) * hexVal (B.drop (2 ^ k))) with hP3
  have htake0 : P0.take n = P0 := by rw [hP0]; exact htake _
  have htake1 : P1.take n = P1 := by rw [hP1]; exact htake _
  have htake2 : P2.take n = P2 := by rw [hP2]; exact htake _
  have htake3 : P3.take n = P3 := by rw [hP3]; exact htake _
  have hl0 : P0.length = n := by rw [hP0]; exact hPlen _
  have hl1 : P1.length = n := by rw [hP1]; exact hPlen _
  have hl2 : P2.length = n := by rw [hP2]; exact hPlen _
  have hl3 : P3.length = n := by rw [hP3]; exact hPlen _
  have hm0 : ∀ c ∈ P0, IsHexDigit c := by rw [hP0]; exact hPmem _
  have hm1 : ∀ c ∈ P1, IsHexDigit c := by rw [hP1]; exact hPmem _
  have hm2 : ∀ c ∈ P2, IsHexDigit c := by rw [hP2]; exact hPmem _
  have hm3 : ∀ c ∈ P3, IsHexDigit c := by rw [hP3]; exact hPmem _
  have hcomb := @combine_spec n (by omega) hn2 P0 P1 P2 P3 P0 P1 P2 P3
    htake0 htake1 htake2 htake3 hl0 hl1 hl2 hl3 hm0 hm1 hm2 hm3
  simp only [hcomb]
  -- the column total is the true product, which fits in 2n digits
  have hvAh : hexVal (A.take (2 ^ k)) < 16 ^ 2 ^ k := by
    have := hexVal_lt hhAh
    rwa [hAhlen] at this
  have hvAl : hexVal (A.drop (2 ^ k)) < 16 ^ 2 ^ k := by
    have := hexVal_lt hhAl
    rwa [hAllen] at this
  have hvBh : hexVal (B.take (2 ^ k)) < 16 ^ 2 ^ k := by
    have := hexVal_lt hhBh
    rwa [hBhlen] at this
  have hvBl : hexVal (B.drop (2 ^ k)) < 16 ^ 2 ^ k := by
    have := hexVal_lt hhBl
    rwa [hBllen] at this
  have hfit : ∀ x y : Nat, x < 16 ^ 2 ^ k → y < 16 ^ 2 ^ k →
      x * y < 16 ^ n := by
    intro x y hx hy
    rw [heven, two_mul, pow_add]
    exact Nat.mul_lt_mul_of_lt_of_lt hx hy
  have hvP0 : hexVal P0 = hexVal (A.take (2 ^ k)) * hexVal (B.take (2 ^ k)) := by
    rw [hP0]
    exact hexVal_toHexFixed_of_lt (hfit _ _ hvAh hvBh)
  have hvP1 : hexVal P1 = hexVal (A.take (2 ^ k)) * hexVal (B.drop (2 ^ k)) := by
    rw [hP1]
    exact hexVal_toHexFixed_of_lt (hfit _ _ hvAh hvBl)
  have hvP2 : hexVal P2 = hexVal (A.drop (2 ^ k)) * hexVal (B.take (2 ^ k)) := by
    rw [hP2]
    exact hexVal_toHexFixed_of_lt (hfit _ _ hvAl hvBh)
  have hvP3 : hexVal P3 = hexVal (A.drop (2 ^ k)) * hexVal (B.drop (2 ^ k)) := by
    rw [hP3]
    exact hexVal_toHexFixed_of_lt (hfit _ _ hvAl hvBl)
  have hsplitA : hexVal A = hexVal (A.take (2 ^ k)) * 16 ^ 2 ^ k + hexVal (A.drop (2 ^ k)) := by
    have := hexVal_take_drop A (2 ^ k)
    rwa [hAllen] at this
  have hsplitB : hexVal B = hexVal (B.take (2 ^ k)) * 16 ^ 2 ^ k + hexVal (B.drop (2 ^ k)) := by
    have := hexVal_take_drop B (2 ^ k)
    rwa [hBllen] at this
  have hT : hexVal P0 * 16 ^ n + hexVal P1 * 16 ^ (n / 2) +
      hexVal P2 * 16 ^ (n / 2) + hexVal P3 =
      hexVal A * hexVal B := by
    rw [hvP0, hvP1, hvP2, hvP3, hsplitA, hsplitB, hmid]
    have h16n : 16 ^ n = 16 ^ 2 ^ k * 16 ^ 2 ^ k := by
      rw [heven, two_mul, pow_add]
    rw [h16n]
    ring
  rw [hT]
  have hAlt : hexVal A < 16 ^ n := by
    have := hexVal_lt hhA
    rwa [hlA] at this
  have hBlt : hexVal B < 16 ^ n := by
    have := hexVal_lt hhB
    rwa [hlB] at this
  have hfits : hexVal A * hexVal B < 16 ^ (2 * n) := by
    rw [two_mul, pow_add]
    exact Nat.mul_lt_mul_of_lt_of_lt hAlt hBlt
  rw [Nat.div_eq_of_lt hfits]
  decide

/-- C8 witness: operands `"1a"` and `"ab"` (k = 0, n = 2). -/
theorem claim_C8_witness :
    (combine (2 ^ (0 + 1))
      (toHexFixed (2 ^ (0 + 1)) (hexVal (([49, 97] : List Nat).take (2 ^ 0)) *
        hexVal (([97, 98] : List Nat).take (2 ^ 0))))
      (toHexFixed (2 ^ (0 + 1)) (hexVal (([49, 97] : List Nat).take (2 ^ 0)) *
        hexVal (([97, 98] : List Nat).drop (2 ^ 0))))
      (toHexFixed (2 ^ (0 + 1)) (hexVal (([49, 97] : List Nat).drop (2 ^ 0)) *
        hexVal (([97, 98] : List Nat).take (2 ^ 0))))
      (toHexFixed (2 ^ (0 + 1)) (hexVal (([49, 97] : List Nat).drop (2 ^ 0)) *
        hexVal (([97, 98] : List Nat).drop (2 ^ 0))))).2 = 48 :=
  claim_C8_final_carry_zero [49, 97] [97, 98] 0 (by decide) (by decide)
    (by decide) (by decide)

/-- C9: any input whose first or second line carries a character that is not
a hex digit (the line terminator aside) makes the program exit with nonzero
status having written nothing to stdout (`none` in the model; the
diagnostics of `intmul.c` go to stderr only). -/
theorem claim_C9_invalid_input (fuel : Nat) (stdin rawA restA rawB restB : List Nat)
    (h1 : getlineModel stdin = some (rawA, restA))
    (h2 : getlineModel restA = some (rawB, restB))
    (hbad : (∃ c ∈ trimNewline rawA, ¬ IsHexDigit c) ∨
            (∃ c ∈ trimNewline rawB, ¬ IsHexDigit c)) :
    intmulProg fuel stdin = none := by
  cases fuel with
  | zero => rfl
  | succ f =>
    show (readInput stdin).bind _ = none
    have hread : readInput stdin = none := by
      unfold readInput
      rw [h1]
      simp only [Option.bind_eq_bind, Option.some_bind]
      by_cases hA10 : rawA = [10]
      · rw [if_pos hA10]
      · rw [if_neg hA10]
        rw [h2]
        simp only [Option.some_bind]
        by_cases hB10 : rawB = [10]
        · rw [if_pos hB10]
        · rw [if_neg hB10]
          rcases hbad with ⟨c, hcmem, hcbad⟩ | ⟨c, hcmem, hcbad⟩
          · have hqa : rawA = (splitAtNewline stdin).1 :=
              congrArg Prod.fst (getlineModel_inv h1)
            have hc10 : c ≠ 10 := by
              apply trimNewline_splitAtNewline_no_newline stdin c
              rw [← hqa]
              exact hcmem
            have hvf : isValidHexadecimal rawA = false :=
              isValidHexadecimal_false (mem_of_mem_trimNewline hcmem) hcbad hc10
            rw [if_pos (by simp [hvf])]
          · have hqb : rawB = (splitAtNewline restA).1 :=
              congrArg Prod.fst (getlineModel_inv h2)
            have hc10 : c ≠ 10 := by
              apply trimNewline_splitAtNewline_no_newline restA c
              rw [← hqb]
              exact hcmem
            have hvf : isValidHexadecimal rawB = false :=
              isValidHexadecimal_false (mem_of_mem_trimNewline hcmem) hcbad hc10
            by_cases hvA : isValidHexadecimal rawA = true
            · rw [if_neg (by simp [hvA]), if_pos (by simp [hvf])]
            · rw [if_pos (by simpa using hvA)]
    rw [hread]
    rfl

/-- C9 witness: first line `"g\n"` (103 is `'g'`, not a hex digit). -/
theorem claim_C9_witness : intmulProg 5 [103, 10, 49, 10] = none :=
  claim_C9_invalid_input 5 [103, 10, 49, 10] [103, 10] [49, 10] [49, 10] []
    (by decide) (by decide) (Or.inl ⟨103, by decide, by decide⟩)

end Intmul
